import Mathlib

/-!
# Verification of the AlpineGP fitness evaluators and primitive catalog

Shallow embedding of the parts of the AlpineGP repository relevant to the
stated properties:

* `apps/stgp_poisson.py` — `eval_MSE` (per-sample inner solve, sentinel
  clamping, aggregation, `return_best_sol` early return);
* `apps/stgp_elastica.py` — `eval_MSE` (NaN break, `X.ndim` normalization,
  bilevel `EI0` state update) and `eval_fitness` (penalty methods);
* `src/alpine/gp/primitives.py` — `generate_primitive` (typed-operator
  catalog expansion), the attribute-map helpers (`switch_category`,
  `rank_downgrade`, `star_dim`) and `addPrimitivesToPset`.

Modelling conventions:

* Machine floats are modelled as `Option ℚ`: `some q` is the finite value
  `q` and `none` is NaN.  Arithmetic propagates `none`.  (Overflow to ±∞
  cannot arise in the rational model; the clamp `current_err > 100` also
  catches `+∞` in the source, so the sentinel behaviour is preserved.)
* The external optimizers (`scipy.optimize.minimize`, the `optctrl`
  bilevel solver) are black boxes per the spec; they are parameters of the
  embedding: deterministic functions of the data the source passes them
  (sample index and, for the elastica, the initial parameter value
  `FL2/EI0`).
* Python strings are `List Char`; Python `dict` insertion is an
  association-list update that overwrites in place (`dictInsert`).
* `eval` of a synthesized type-name string resolves to the type of that
  name, so a type is identified with its name string.
-/

/-- NaN-propagating subtraction-square-accumulate:
`‖x - y‖² = Σ (xᵢ - yᵢ)²` for a solver output `x` (entries possibly NaN)
against a ground-truth vector `y`.  Models
`np.linalg.norm(x - X[i, :]) ** 2` in `apps/stgp_poisson.py` line 120 and
`jnp.sum(jnp.square(theta_guess - theta_true))` in
`apps/stgp_elastica.py` line 75. -/
def distSq : List (Option ℚ) → List ℚ → Option ℚ
  | [], [] => some 0
  | some a :: xs, b :: ys => Option.map (fun s => (a - b) ^ 2 + s) (distSq xs ys)
  | _, _ => none

/-- `apps/stgp_poisson.py` lines 122-123:
`if current_err > 100 or math.isnan(current_err): current_err = 100`. -/
def clampErr (e : Option ℚ) : ℚ :=
  match e with
  | none => 100
  | some q => if q > 100 then 100 else q

/-- `apps/stgp_poisson.py` line 44: `num_sources = 3`. -/
def numSources : ℚ := 3

/-- `apps/stgp_poisson.py` line 46: `num_samples_per_source = 4`. -/
def numSamplesPerSource : ℚ := 4

/-- The sample loop of the Poisson `eval_MSE`
(`apps/stgp_poisson.py` lines 110-125): for each sample index `i` the
inner solve result is `solver i` (the output of `minimize` started from
the fixed initial guess `u_0` with the sample's data); with
`return_best_sol` the solution of the current sample is returned at once,
otherwise the clamped squared distance to `X[i, :]` is accumulated. -/
def poissonSamples (solver : ℕ → List (Option ℚ)) (X : List (List ℚ))
    (retBest : Bool) : List ℕ → ℚ → (List (Option ℚ)) ⊕ ℚ
  | [], acc => Sum.inr acc
  | i :: rest, acc =>
      let x := solver i
      if retBest then Sum.inl x
      else poissonSamples solver X retBest rest
        (acc + clampErr (distSq x (X.getD i [])))

/-- `eval_MSE` of `apps/stgp_poisson.py` (lines 94-129).  The loop runs
over the `n` samples of the split (`for i, vec_y in enumerate(y)`); the
final total is multiplied by `1/(num_sources*num_samples_per_source)`
(line 127). -/
def eval_MSE_poisson (solver : ℕ → List (Option ℚ)) (X : List (List ℚ))
    (n : ℕ) (returnBestSol : Bool) : (List (Option ℚ)) ⊕ ℚ :=
  match poissonSamples solver X returnBestSol (List.range n) 0 with
  | Sum.inl x => Sum.inl x
  | Sum.inr t => Sum.inr (t * (1 / (numSources * numSamplesPerSource)))

example : eval_MSE_poisson (fun _ => [some 20]) [[0]] 1 false
    = Sum.inr (100 * (1 / 12)) := by
  norm_num [eval_MSE_poisson, poissonSamples, distSq, clampErr,
    numSources, numSamplesPerSource, List.range_succ]

example : eval_MSE_poisson (fun _ => [some 2]) [[0]] 1 false
    = Sum.inr (1 / 3) := by
  norm_num [eval_MSE_poisson, poissonSamples, distSq, clampErr,
    numSources, numSamplesPerSource, List.range_succ]

example : eval_MSE_poisson (fun _ => [none]) [[0]] 2 true
    = Sum.inl [none] := by
  norm_num [eval_MSE_poisson, poissonSamples, List.range_succ]

/-- Objective of the elastica inverse problem, `obj_fun_theta` in
`apps/stgp_elastica.py` lines 65-75: the guess is extended with the true
boundary value `theta_true[0]` and compared to the true field by a sum of
squares.  The `EI_guess` argument is unused, as in the source. -/
def obj_fun_theta (thetaGuess : List (Option ℚ)) (EIguess : ℚ)
    (thetaTrue : List ℚ) : Option ℚ :=
  distSq (some (thetaTrue.getD 0 0) :: thetaGuess) thetaTrue

/-- Rounding of `x` to the nearest integer, ties to even: the rounding
performed by Python's fixed-point formatting. -/
def roundHalfEven (x : ℚ) : ℤ :=
  if x - ⌊x⌋ = 1 / 2 then (if ⌊x⌋ % 2 = 0 then ⌊x⌋ else ⌊x⌋ + 1)
  else ⌊x + 1 / 2⌋

/-- Model of `float("{:.5f}".format(total_err))` in
`apps/stgp_elastica.py` line 157: round to five decimal places. -/
def round5 (q : ℚ) : ℚ := (roundHalfEven (q * 100000) : ℚ) / 100000

/-- The sample loop of the elastica `eval_MSE`
(`apps/stgp_elastica.py` lines 103-148).  Black boxes: `bil f` is the
triple `(theta, FL2_EI0, fval)` returned by the bilevel
`OptimalControlProblem.run` started at parameter value `f`
(with the fixed `theta_0`); `inner i f` is the `theta` returned by
`minimize` for sample `i` at parameter value `f`.  State: the running
total and the current `EI0` (mutated at the first sample when the bilevel
fit is on).  On a NaN objective the total is set to 100 and the loop
exits (`total_err = 100; break`). -/
def elasticaGo (bil : ℚ → List (Option ℚ) × ℚ × Option ℚ)
    (inner : ℕ → ℚ → List (Option ℚ))
    (X : List (List ℚ)) (ys : List ℚ) (isBil : Bool) :
    List ℕ → ℚ → ℚ → ℚ × ℚ
  | [], acc, EI0 => (acc, EI0)
  | i :: rest, acc, EI0 =>
      let FL2 := ys.getD i 0
      let FL2EI := FL2 / EI0
      if i = 0 ∧ isBil = true then
        let r := bil FL2EI
        let EI0' := FL2 / r.2.1
        match r.2.2 with
        | none => (100, EI0')
        | some v => elasticaGo bil inner X ys isBil rest (acc + v) EI0'
      else
        match obj_fun_theta (inner i FL2EI) FL2EI (X.getD i []) with
        | none => (100, EI0)
        | some v => elasticaGo bil inner X ys isBil rest (acc + v) EI0

/-- The elastica `eval_MSE` (`apps/stgp_elastica.py` lines 78-158) with
`return_best_sol=False` (the solution-collecting branch returns the
solver outputs unchanged and is not needed by any property here).
Returns the error value together with the `individual.EI0` state after
the call.  A one-dimensional `X` is iterated as the single sample
`[X]` (lines 98-102), hence the sample count is 1 when `ndim = 1`;
the total is multiplied by `1/X.ndim` (line 153) and formatted to five
decimals (line 157). -/
def eval_MSE_elastica (bil : ℚ → List (Option ℚ) × ℚ × Option ℚ)
    (inner : ℕ → ℚ → List (Option ℚ))
    (X : List (List ℚ)) (ys : List ℚ) (EI0 : ℚ) (isBil : Bool)
    (ndim n : ℕ) : ℚ × ℚ :=
  let nSamples := if ndim = 1 then 1 else n
  let r := elasticaGo bil inner X ys isBil (List.range nSamples) 0 EI0
  (round5 (r.1 * (1 / (ndim : ℚ))), r.2)

/-- Fuel-driven scan for non-overlapping substring occurrences.  With the
pattern found at the current position the scan resumes after it, else one
character later. -/
def strCountGo (pat : List Char) : ℕ → List Char → ℕ
  | 0, _ => 0
  | _ + 1, [] => 0
  | fuel + 1, c :: rest =>
      if pat.isPrefixOf (c :: rest) then
        1 + strCountGo pat fuel (List.drop (pat.length - 1) rest)
      else strCountGo pat fuel rest

/-- Python's `str.count`: number of non-overlapping occurrences of `pat`
in `s`, scanning left to right.  (Claims only apply it to non-empty
patterns.) -/
def strCount (pat s : List Char) : ℕ := strCountGo pat (s.length + 1) s

/-- Python's `max` over a list: `none` on the empty list (where the
source would raise `ValueError`). -/
def pyMax : List ℕ → Option ℕ
  | [] => none
  | h :: t => some (t.foldl max h)

/-- The elastica `eval_fitness` (`apps/stgp_elastica.py` lines 161-195).
`indStr` is `str(individual)`, `indLen` is `len(individual)` (node
count), `primStrs` is the module-level `primitives_strings`
(`get_primitives_strings(pset, types)`, defined outside this
repository's sources).  Returns `none` where the source would raise
(Python `max` of an empty sequence). -/
def eval_fitness_elastica (bil : ℚ → List (Option ℚ) × ℚ × Option ℚ)
    (inner : ℕ → ℚ → List (Option ℚ))
    (X : List (List ℚ)) (ys : List ℚ) (EI0 : ℚ) (isBil : Bool)
    (ndim n : ℕ) (method : List Char) (regParam : ℚ)
    (indStr : List Char) (indLen : ℕ)
    (primStrs : List (List Char)) : Option ℚ :=
  let total := (eval_MSE_elastica bil inner X ys EI0 isBil ndim n).1
  if method = "primitive".data then
    match pyMax (primStrs.map (fun s => strCount s indStr)) with
    | some m => some (total + regParam * (m : ℚ))
    | none => none
  else if method = "length".data then some (total + regParam * (indLen : ℚ))
  else some total

example :
    eval_MSE_elastica (fun f => ([], f, none))
      (fun i _ => if i = 0 then [some 2] else [none])
      [[0, 0], [0, 0]] [1, 1] 1 false 2 2 = (50, 1) := by
  norm_num [eval_MSE_elastica, elasticaGo, obj_fun_theta, distSq,
    round5, roundHalfEven, List.range_succ]

example : strCount "ab".data "cababx".data = 2 := by decide

/-- Python's `str.replace`, fuel-driven: replaces every non-overlapping
occurrence of `pat`, scanning left to right.  (Only used with the
non-empty pattern `"SC"`.) -/
def replaceAllGo (pat rep : List Char) : ℕ → List Char → List Char
  | 0, s => s
  | _ + 1, [] => []
  | fuel + 1, c :: rest =>
      if pat ≠ [] ∧ pat.isPrefixOf (c :: rest) then
        rep ++ replaceAllGo pat rep fuel (List.drop (pat.length - 1) rest)
      else c :: replaceAllGo pat rep fuel rest

/-- Python's `s.replace(pat, rep)` on character lists. -/
def replaceAll (pat rep s : List Char) : List Char :=
  replaceAllGo pat rep (s.length + 1) s

/-- Python's `str(d)` for an integer `d`.  Dimensions are carried as
integers (`int(in_dim)` in the source) and rendered back with `str` when
concatenated into names. -/
def intStr (d : ℤ) : List Char := (toString d).data

/-- `PrimitiveParams` of `src/alpine/gp/primitives.py` lines 46-50.  The
`eval`-ed input/output types are identified with their name strings; the
wrapped callable is an opaque token of type `α`. -/
structure PrimitiveParams (α : Type) where
  op : α
  in_types : List (List Char)
  out_type : List Char
deriving DecidableEq

/-- Dimension-attribute map of a family: `plain` is a unary callable
(`identity`, `partial(operator.add, ±1)`, `empty_string`); `withMax` is
the binary `star_dim`, which `generate_primitive` applies to
`(int(in_dim), max_dim)`.  The rendering `str(...)` of the result is
folded into the stored function. -/
inductive DimFun where
  | plain (f : ℤ → List Char)
  | withMax (f : ℤ → ℤ → List Char)

/-- An operator-family descriptor: the dictionary argument of
`generate_primitive` (`src/alpine/gp/primitives.py` lines 199-254).
`mapCat` is `map_rule['category']` (strings to strings), `mapRank` is
`map_rule['rank']` applied to the already-`"SC"`-stripped rank; `none`
models the map raising (`rank_downgrade`'s `ValueError`). -/
structure PrimDesc (α : Type) where
  famName : List Char
  op : α
  inputs : List (List Char)
  output : List Char
  cats : List (List Char)
  dims : List ℤ
  ranks : List (List Char)
  mapCat : List Char → List Char
  mapDim : DimFun
  mapRank : List Char → Option (List Char)

/-- Lines 244-248 of `src/alpine/gp/primitives.py`: the `"St"` family's
dimension map is called with `(int(in_dim), max_dim)`, every other
family's with `int(in_dim)` alone; an arity mismatch would be a Python
`TypeError`, modelled as `none`. -/
def applyDim (rule : DimFun) (famName : List Char) (d maxDim : ℤ) :
    Option (List Char) :=
  match rule with
  | .plain f => if famName = "St".data then none else some (f d)
  | .withMax f => if famName = "St".data then some (f d maxDim) else none

/-- Lines 231-241 of `src/alpine/gp/primitives.py`: the input-type names
of one instantiation.  `"float"` inputs stay bare; with a two-letter rank
(`"VT"`) input `i` takes the `i`-th rank letter (an index error past the
second input is `none`); otherwise the rank string is appended whole. -/
def inTypesGo (c dS r : List Char) : List (List Char) → ℕ →
    Option (List (List Char))
  | [], _ => some []
  | inp :: rest, i =>
      let hd : Option (List Char) :=
        if inp = "float".data then some inp
        else if r.length = 2 then (r.get? i).map (fun ch => inp ++ c ++ dS ++ [ch])
        else some (inp ++ c ++ dS ++ r)
      match hd, inTypesGo c dS r rest (i + 1) with
      | some h, some t => some (h :: t)
      | _, _ => none

/-- The synthesized name of one instantiation
(`src/alpine/gp/primitives.py` lines 228-230): family name + category +
dimension + rank, with `"SC"` replaced by the empty suffix. -/
def mkName (fam c : List Char) (d : ℤ) (r : List Char) : List Char :=
  fam ++ c ++ intStr d ++ replaceAll "SC".data [] r

/-- The body of `generate_primitive`'s innermost loop for one
`(category, dimension, rank)` combination: the synthesized name paired
with its `PrimitiveParams`; `none` when any attribute map raises. -/
def genEntry {α : Type} (p : PrimDesc α) (maxDim : ℤ) (c : List Char)
    (d : ℤ) (r : List Char) : Option (List Char × PrimitiveParams α) :=
  match inTypesGo c (intStr d) (replaceAll "SC".data [] r) p.inputs 0,
        applyDim p.mapDim p.famName d maxDim,
        p.mapRank (replaceAll "SC".data [] r) with
  | some tys, some od, some orr =>
      some (p.famName ++ c ++ intStr d ++ replaceAll "SC".data [] r,
        ⟨p.op, tys, p.output ++ p.mapCat c ++ od ++ orr⟩)
  | _, _, _ => none

/-- Python `dict` assignment `d[k] = v` on an insertion-ordered
association list: overwrite in place if the key exists, else append. -/
def dictInsert {α : Type} (k : List Char) (v : α) :
    List (List Char × α) → List (List Char × α)
  | [] => [(k, v)]
  | q :: rest => if q.1 = k then (k, v) :: rest else q :: dictInsert k v rest

/-- The declared attribute cross-product in the nesting order of the
three `for` loops of `generate_primitive` (category outermost, rank
innermost). -/
def attrTriples (cats : List (List Char)) (dims : List ℤ)
    (ranks : List (List Char)) : List (List Char × ℤ × List Char) :=
  cats.flatMap (fun c => dims.flatMap (fun d => ranks.map (fun r => (c, d, r))))

/-- The triple loop of `generate_primitive`
(`src/alpine/gp/primitives.py` lines 224-253), inserting each generated
entry into the `primitive_dictionary`; an exception from any attribute
map aborts the build (`none`). -/
def genLoop {α : Type} (p : PrimDesc α) (maxDim : ℤ) :
    List (List Char × ℤ × List Char) → List (List Char × PrimitiveParams α) →
    Option (List (List Char × PrimitiveParams α))
  | [], acc => some acc
  | t :: rest, acc =>
      match genEntry p maxDim t.1 t.2.1 t.2.2 with
      | some e => genLoop p maxDim rest (dictInsert e.1 e.2 acc)
      | none => none

/-- `generate_primitive` (`src/alpine/gp/primitives.py` lines 199-254).
`max_dim = int(list(in_attribute['dimension'])[-1])` is the LAST declared
dimension (an `IndexError`, hence `none`, on an empty set). -/
def generate_primitive {α : Type} (p : PrimDesc α) :
    Option (List (List Char × PrimitiveParams α)) :=
  if p.dims = [] then none
  else genLoop p (p.dims.getLastD 0) (attrTriples p.cats p.dims p.ranks) []

/-- `switch_category` (`src/alpine/gp/primitives.py` lines 257-259)
restricted to the two categories it is used with:
`list(set(('P','D')) - set(category))[0]`. -/
def switch_category (c : List Char) : List Char :=
  if c = "P".data then "D".data else "P".data

/-- `rank_downgrade` (`src/alpine/gp/primitives.py` lines 270-275):
`"T" → "V"`, `"V" → ""`, and `raise ValueError` (= `none`) otherwise. -/
def rank_downgrade (r : List Char) : Option (List Char) :=
  if r = "T".data then some "V".data
  else if r = "V".data then some []
  else none

/-- `star_dim` (`src/alpine/gp/primitives.py` lines 282-283). -/
def star_dim (d maxDim : ℤ) : ℤ := maxDim - d

/-- The `coboundary` family descriptor
(`src/alpine/gp/primitives.py` lines 315-319): dimensions `('0','1')`,
rank `('SC',)`, dimension map `partial(operator.add, 1)`. -/
def coboundary : PrimDesc Unit where
  famName := "d".data
  op := ()
  inputs := ["C.Cochain".data]
  output := "C.Cochain".data
  cats := ["P".data, "D".data]
  dims := [0, 1]
  ranks := ["SC".data]
  mapCat := fun c => c
  mapDim := .plain (fun d => intStr (1 + d))
  mapRank := fun r => some r

/-- The `codifferential` family descriptor
(`src/alpine/gp/primitives.py` lines 321-325): dimensions `('1','2')`,
rank `('SC',)`, dimension map `partial(operator.add, -1)`. -/
def codifferential : PrimDesc Unit where
  famName := "del".data
  op := ()
  inputs := ["C.Cochain".data]
  output := "C.Cochain".data
  cats := ["P".data, "D".data]
  dims := [1, 2]
  ranks := ["SC".data]
  mapCat := fun c => c
  mapDim := .plain (fun d => intStr (-1 + d))
  mapRank := fun r => some r

/-- The `star` family descriptor
(`src/alpine/gp/primitives.py` lines 357-361): dimensions `('0','1','2')`,
ranks `('SC','T')`, category map `switch_category`, dimension map
`star_dim` applied to `(d, max_dim)`. -/
def star : PrimDesc Unit where
  famName := "St".data
  op := ()
  inputs := ["C.Cochain".data]
  output := "C.Cochain".data
  cats := ["P".data, "D".data]
  dims := [0, 1, 2]
  ranks := ["SC".data, "T".data]
  mapCat := switch_category
  mapDim := .withMax (fun d m => intStr (star_dim d m))
  mapRank := fun r => some r

/-- The `tr_coch` (trace) family descriptor
(`src/alpine/gp/primitives.py` lines 327-331): rank set `('T',)` only,
rank map `rank_downgrade`. -/
def tr_coch : PrimDesc Unit where
  famName := "tr".data
  op := ()
  inputs := ["C.Cochain".data]
  output := "C.Cochain".data
  cats := ["P".data, "D".data]
  dims := [0, 1, 2]
  ranks := ["T".data]
  mapCat := fun c => c
  mapDim := .plain (fun d => intStr d)
  mapRank := rank_downgrade

/-- The trace family as `tr_coch` but with the invalid rank `'SC'` in its
declared rank set — the hypothetical descriptor of the silent-skip
claim. -/
def tr_coch_SC : PrimDesc Unit := { tr_coch with ranks := ["SC".data] }

example :
    (generate_primitive coboundary).map (fun l => l.map Prod.fst)
      = some ["dP0".data, "dP1".data, "dD0".data, "dD1".data] := by decide

lemma genEntry_fst {α : Type} (p : PrimDesc α) (m : ℤ) (c : List Char)
    (d : ℤ) (r : List Char) (e : List Char × PrimitiveParams α)
    (he : genEntry p m c d r = some e) : e.1 = mkName p.famName c d r := by
  unfold genEntry at he
  split at he
  · injection he with h
    rw [← h]
    simp [mkName]
  · exact absurd he (by simp)

lemma mem_map_fst_append {α : Type} (k : List Char)
    (l : List (List Char × α)) (e : List Char × α) :
    k ∈ (l ++ [e]).map Prod.fst ↔ k ∈ l.map Prod.fst ∨ k = e.1 := by
  rw [List.map_append, List.mem_append, List.map_cons, List.map_nil,
    List.mem_singleton]

lemma dictInsert_of_not_mem {α : Type} (k : List Char) (v : α) :
    ∀ l : List (List Char × α), k ∉ l.map Prod.fst →
      dictInsert k v l = l ++ [(k, v)] := by
  intro l
  induction l with
  | nil => intro _; rfl
  | cons q rest ih =>
      intro h
      rw [List.map_cons] at h
      have hk : ¬ q.1 = k := fun hq => h (by rw [hq]; exact List.mem_cons_self _ _)
      have hrest : k ∉ rest.map Prod.fst := fun hm => h (List.mem_cons_of_mem _ hm)
      simp only [dictInsert, if_neg hk, List.cons_append, List.cons.injEq, true_and]
      exact ih hrest

lemma genLoop_keys {α : Type} (p : PrimDesc α) (m : ℤ) :
    ∀ (ts : List (List Char × ℤ × List Char))
      (acc : List (List Char × PrimitiveParams α)),
      (∀ t ∈ ts, (genEntry p m t.1 t.2.1 t.2.2).isSome = true) →
      (ts.map (fun t => mkName p.famName t.1 t.2.1 t.2.2)).Nodup →
      (∀ t ∈ ts, mkName p.famName t.1 t.2.1 t.2.2 ∉ acc.map Prod.fst) →
      ∃ L, genLoop p m ts acc = some L ∧
        L.map Prod.fst = acc.map Prod.fst ++
          ts.map (fun t => mkName p.famName t.1 t.2.1 t.2.2) := by
  intro ts
  induction ts with
  | nil =>
      intro acc _ _ _
      exact ⟨acc, rfl, by simp⟩
  | cons t rest ih =>
      intro acc hgen hnd hacc
      obtain ⟨e, he⟩ :=
        Option.isSome_iff_exists.mp (hgen t (List.mem_cons_self _ _))
      have hkey : e.1 = mkName p.famName t.1 t.2.1 t.2.2 :=
        genEntry_fst p m t.1 t.2.1 t.2.2 e he
      have hacct := hacc t (List.mem_cons_self _ _)
      rw [← hkey] at hacct
      have hins : dictInsert e.1 e.2 acc = acc ++ [(e.1, e.2)] :=
        dictInsert_of_not_mem e.1 e.2 acc hacct
      rw [List.map_cons] at hnd
      have hne := (List.nodup_cons.mp hnd).1
      have hnd' := (List.nodup_cons.mp hnd).2
      obtain ⟨L, hL, hkeysL⟩ := ih (acc ++ [(e.1, e.2)])
        (fun u hu => hgen u (List.mem_cons_of_mem _ hu))
        hnd'
        (by
          intro u hu hmem
          rcases (mem_map_fst_append _ acc (e.1, e.2)).mp hmem with h1 | h2
          · exact hacc u (List.mem_cons_of_mem _ hu) h1
          · have h3 : mkName p.famName u.1 u.2.1 u.2.2
                = mkName p.famName t.1 t.2.1 t.2.2 := by rw [h2, hkey]
            exact hne (h3 ▸ List.mem_map_of_mem
              (fun t => mkName p.famName t.1 t.2.1 t.2.2) hu))
      refine ⟨L, ?_, ?_⟩
      · have hstep : genLoop p m (t :: rest) acc
            = genLoop p m rest (dictInsert e.1 e.2 acc) := by
          simp [genLoop, he]
        rw [hstep, hins]
        exact hL
      · rw [hkeysL, List.map_cons]
        simp [hkey, List.map_append]

lemma suffix_inj :
    ∀ c ∈ ["P".data, "D".data], ∀ c2 ∈ ["P".data, "D".data],
    ∀ d ∈ ([0, 1, 2] : List ℤ), ∀ d2 ∈ ([0, 1, 2] : List ℤ),
    ∀ r ∈ ["SC".data, "V".data, "T".data, "VT".data],
    ∀ r2 ∈ ["SC".data, "V".data, "T".data, "VT".data],
      c ++ (intStr d ++ replaceAll "SC".data [] r)
        = c2 ++ (intStr d2 ++ replaceAll "SC".data [] r2) →
      c = c2 ∧ d = d2 ∧ r = r2 := by decide

lemma mkName_inj (fam c c2 : List Char) (d d2 : ℤ) (r r2 : List Char)
    (hc : c ∈ ["P".data, "D".data]) (hc2 : c2 ∈ ["P".data, "D".data])
    (hd : d ∈ ([0, 1, 2] : List ℤ)) (hd2 : d2 ∈ ([0, 1, 2] : List ℤ))
    (hr : r ∈ ["SC".data, "V".data, "T".data, "VT".data])
    (hr2 : r2 ∈ ["SC".data, "V".data, "T".data, "VT".data])
    (h : mkName fam c d r = mkName fam c2 d2 r2) :
    c = c2 ∧ d = d2 ∧ r = r2 := by
  apply suffix_inj c hc c2 hc2 d hd d2 hd2 r hr r2 hr2
  apply @List.append_cancel_left _ fam
  simpa [mkName, List.append_assoc] using h

lemma attrTriples_eq_product (cats : List (List Char)) (dims : List ℤ)
    (ranks : List (List Char)) :
    attrTriples cats dims ranks = cats ×ˢ dims ×ˢ ranks := by
  simp [attrTriples, SProd.sprod, List.product, List.map_flatMap,
    List.map_map, Function.comp_def]

lemma mem_attrTriples (cats : List (List Char)) (dims : List ℤ)
    (ranks : List (List Char)) (t : List Char × ℤ × List Char) :
    t ∈ attrTriples cats dims ranks ↔
      t.1 ∈ cats ∧ t.2.1 ∈ dims ∧ t.2.2 ∈ ranks := by
  obtain ⟨c, d, r⟩ := t
  rw [attrTriples_eq_product]
  simp [List.mem_product]

lemma attrTriples_nodup (cats : List (List Char)) (dims : List ℤ)
    (ranks : List (List Char)) (hc : cats.Nodup) (hd : dims.Nodup)
    (hr : ranks.Nodup) : (attrTriples cats dims ranks).Nodup := by
  rw [attrTriples_eq_product]
  exact hc.product (hd.product hr)

lemma attrTriples_length (cats : List (List Char)) (dims : List ℤ)
    (ranks : List (List Char)) :
    (attrTriples cats dims ranks).length
      = cats.length * dims.length * ranks.length := by
  rw [attrTriples_eq_product, List.length_product, List.length_product,
    Nat.mul_assoc]

/-- The `add_coch` family (`src/alpine/gp/primitives.py` lines 303-307)
restricted to category `{P}`, dimension `{0}`, rank `{SC}`: the trivial
one-primitive catalog family of the specification's scenario. -/
def add_coch_P0SC : PrimDesc Unit where
  famName := "AddC".data
  op := ()
  inputs := ["C.Cochain".data, "C.Cochain".data]
  output := "C.Cochain".data
  cats := ["P".data]
  dims := [0]
  ranks := ["SC".data]
  mapCat := fun c => c
  mapDim := .plain (fun d => intStr d)
  mapRank := fun r => some r

/-- C4: for every operator-family descriptor (with attributes drawn from
the declared attribute universe, pairwise-distinct declared attribute
values, and attribute maps defined on every declared combination),
`generate_primitive` returns a mapping with exactly one entry per
`(category, dimension, rank)` triple of the declared cross-product, each
keyed by the synthesized name `family ++ category ++ dimension ++ rank`
(rank `"SC"` contributing the empty suffix), and the synthesized names
are pairwise distinct, so no insertion ever overwrites an earlier
entry. -/
theorem generate_primitive_cross_product {α : Type} (p : PrimDesc α)
    (hc : ∀ c ∈ p.cats, c ∈ ["P".data, "D".data])
    (hd : ∀ d ∈ p.dims, d ∈ ([0, 1, 2] : List ℤ))
    (hr : ∀ r ∈ p.ranks, r ∈ ["SC".data, "V".data, "T".data, "VT".data])
    (hcn : p.cats.Nodup) (hdn : p.dims.Nodup) (hrn : p.ranks.Nodup)
    (hne : p.dims ≠ [])
    (hgen : ∀ c ∈ p.cats, ∀ d ∈ p.dims, ∀ r ∈ p.ranks,
      (genEntry p (p.dims.getLastD 0) c d r).isSome = true) :
    ∃ L, generate_primitive p = some L ∧
      L.map Prod.fst = (attrTriples p.cats p.dims p.ranks).map
        (fun t => mkName p.famName t.1 t.2.1 t.2.2) ∧
      (L.map Prod.fst).Nodup ∧
      L.length = p.cats.length * p.dims.length * p.ranks.length := by
  have hmapnd : ((attrTriples p.cats p.dims p.ranks).map
      (fun t => mkName p.famName t.1 t.2.1 t.2.2)).Nodup := by
    apply List.Nodup.map_on ?_ (attrTriples_nodup _ _ _ hcn hdn hrn)
    intro t ht u hu heq
    rw [mem_attrTriples] at ht hu
    obtain ⟨c, d, r⟩ := t
    obtain ⟨c2, d2, r2⟩ := u
    obtain ⟨h1, h2, h3⟩ := mkName_inj p.famName c c2 d d2 r r2
      (hc _ ht.1) (hc _ hu.1) (hd _ ht.2.1) (hd _ hu.2.1)
      (hr _ ht.2.2) (hr _ hu.2.2) heq
    simp [h1, h2, h3]
  obtain ⟨L, hL, hkeys⟩ := genLoop_keys p (p.dims.getLastD 0)
    (attrTriples p.cats p.dims p.ranks) []
    (fun t ht => by
      rw [mem_attrTriples] at ht
      exact hgen t.1 ht.1 t.2.1 ht.2.1 t.2.2 ht.2.2)
    hmapnd
    (by intro t _ h; simp at h)
  have hkeys2 : L.map Prod.fst = (attrTriples p.cats p.dims p.ranks).map
      (fun t => mkName p.famName t.1 t.2.1 t.2.2) := by simpa using hkeys
  refine ⟨L, ?_, hkeys2, ?_, ?_⟩
  · unfold generate_primitive
    rw [if_neg hne]
    exact hL
  · rw [hkeys2]
    exact hmapnd
  · have h1 : L.length = (attrTriples p.cats p.dims p.ranks).length := by
      have h2 := congrArg List.length hkeys2
      simpa using h2
    rw [h1, attrTriples_length]

/-- Witness for C4 at the one-primitive family of the spec scenario:
category `{P}`, dimension `{0}`, rank `{SC}` yields exactly one
primitive. -/
theorem generate_primitive_cross_product_witness :
    ∃ L, generate_primitive add_coch_P0SC = some L ∧
      L.map Prod.fst = (attrTriples add_coch_P0SC.cats add_coch_P0SC.dims
        add_coch_P0SC.ranks).map
        (fun t => mkName add_coch_P0SC.famName t.1 t.2.1 t.2.2) ∧
      (L.map Prod.fst).Nodup ∧
      L.length = 1 := by
  obtain ⟨L, h1, h2, h3, h4⟩ := generate_primitive_cross_product add_coch_P0SC
    (by decide) (by decide) (by decide) (by decide) (by decide) (by decide)
    (by decide) (by decide)
  exact ⟨L, h1, h2, h3, by rw [h4]; decide⟩

/-- C5: in the generated catalog, every coboundary primitive maps a
cochain of input dimension `d ∈ {0,1}` to output dimension `d+1` (the top
dimension 2 is never an input), every codifferential primitive maps input
dimension `d ∈ {1,2}` to output dimension `d-1` (dimension 0 is never an
input), and every Hodge-star primitive maps input dimension `d` to output
dimension `max_dim - d`, where `max_dim = 2` is the largest (and last)
declared input dimension of the star family. -/
theorem catalog_dimension_rules :
    ((generate_primitive coboundary).isSome = true ∧
      ∀ e ∈ (generate_primitive coboundary).getD [],
        ∃ c ∈ ["P".data, "D".data], ∃ d ∈ ([0, 1] : List ℤ),
          e.2.in_types = ["C.Cochain".data ++ c ++ intStr d] ∧
          e.2.out_type = "C.Cochain".data ++ c ++ intStr (d + 1)) ∧
    ((generate_primitive codifferential).isSome = true ∧
      ∀ e ∈ (generate_primitive codifferential).getD [],
        ∃ c ∈ ["P".data, "D".data], ∃ d ∈ ([1, 2] : List ℤ),
          e.2.in_types = ["C.Cochain".data ++ c ++ intStr d] ∧
          e.2.out_type = "C.Cochain".data ++ c ++ intStr (d - 1)) ∧
    (star.dims.getLastD 0 = 2 ∧ (∀ d ∈ star.dims, d ≤ 2) ∧
      (generate_primitive star).isSome = true ∧
      ∀ e ∈ (generate_primitive star).getD [],
        ∃ c ∈ ["P".data, "D".data], ∃ d ∈ ([0, 1, 2] : List ℤ),
        ∃ r ∈ [([] : List Char), "T".data],
          e.2.in_types = ["C.Cochain".data ++ c ++ intStr d ++ r] ∧
          e.2.out_type
            = "C.Cochain".data ++ switch_category c ++ intStr (2 - d) ++ r) := by
  decide

/-- C6 counterexample: a trace-family descriptor whose declared rank set
contains `'SC'` (outside `rank_downgrade`'s domain) makes
`generate_primitive` raise (`ValueError` propagates, modelled `none`): the
combination is not silently skipped and no mapping is returned. -/
theorem trace_invalid_rank_cex : generate_primitive tr_coch_SC = none := by
  decide

/-- C6 amended: `generate_primitive` applies the rank map to every
declared combination with no skip logic: a rank outside the map's domain
aborts the whole catalog build with the map's exception, and invalid
combinations are avoided only because each family declares exactly the
attribute values its maps accept — the actual trace family declares rank
`('T',)` alone and builds all six instantiations. -/
theorem trace_rank_domain_amended :
    generate_primitive tr_coch_SC = none ∧
    rank_downgrade (replaceAll "SC".data [] "SC".data) = none ∧
    (generate_primitive tr_coch).isSome = true ∧
    ((generate_primitive tr_coch).getD []).length = 6 ∧
    rank_downgrade "T".data = some "V".data := by decide

lemma poissonSamples_sum (solver : ℕ → List (Option ℚ)) (X : List (List ℚ)) :
    ∀ (is : List ℕ) (acc : ℚ),
      poissonSamples solver X false is acc = Sum.inr
        (acc + (is.map (fun i => clampErr (distSq (solver i) (X.getD i [])))).sum) := by
  intro is
  induction is with
  | nil => intro acc; simp [poissonSamples]
  | cons i rest ih =>
      intro acc
      simp [poissonSamples, ih, List.sum_cons, add_assoc]

lemma rangeSplit (i n : ℕ) (h : i < n) :
    List.range n = List.range i ++ i :: List.range' (i + 1) (n - i - 1) := by
  have h2 : List.range' 0 i 1 ++ List.range' (0 + 1 * i) (n - i) 1
      = List.range' 0 (n - i + i) 1 := List.range'_append 0 i (n - i) 1
  rw [show n - i = (n - i - 1) + 1 by omega, List.range'_succ] at h2
  simp only [Nat.zero_add, Nat.one_mul] at h2
  rw [show n - i - 1 + 1 + i = n by omega] at h2
  rw [List.range_eq_range', List.range_eq_range', ← h2]

lemma elasticaGo_false_snd (bil : ℚ → List (Option ℚ) × ℚ × Option ℚ)
    (inner : ℕ → ℚ → List (Option ℚ)) (X : List (List ℚ)) (ys : List ℚ) :
    ∀ (l : List ℕ) (acc EI0 : ℚ),
      (elasticaGo bil inner X ys false l acc EI0).2 = EI0 := by
  intro l
  induction l with
  | nil => intro acc EI0; simp [elasticaGo]
  | cons i rest ih =>
      intro acc EI0
      cases h : obj_fun_theta (inner i (ys.getD i 0 / EI0))
          (ys.getD i 0 / EI0) (X.getD i []) with
      | none =>
          simp only [List.getD_eq_getElem?_getD] at h
          simp [elasticaGo, h]
      | some v =>
          simp only [List.getD_eq_getElem?_getD] at h
          simp [elasticaGo, h, ih]

lemma elasticaGo_false_sum (bil : ℚ → List (Option ℚ) × ℚ × Option ℚ)
    (inner : ℕ → ℚ → List (Option ℚ)) (X : List (List ℚ)) (ys : List ℚ) :
    ∀ (l : List ℕ) (acc EI0 : ℚ),
      (∀ j ∈ l, obj_fun_theta (inner j (ys.getD j 0 / EI0))
        (ys.getD j 0 / EI0) (X.getD j []) ≠ none) →
      elasticaGo bil inner X ys false l acc EI0
        = (acc + (l.map (fun j => (obj_fun_theta (inner j (ys.getD j 0 / EI0))
            (ys.getD j 0 / EI0) (X.getD j [])).getD 0)).sum, EI0) := by
  intro l
  induction l with
  | nil => intro acc EI0 _; simp [elasticaGo]
  | cons i rest ih =>
      intro acc EI0 hfin
      obtain ⟨v, hv⟩ := Option.ne_none_iff_exists'.mp
        (hfin i (List.mem_cons_self _ _))
      have ih2 := ih (acc + v) EI0 (fun u hu => hfin u (List.mem_cons_of_mem _ hu))
      simp only [List.getD_eq_getElem?_getD] at hv ih2
      simp [elasticaGo, hv, ih2, List.sum_cons, add_assoc]

lemma elasticaGo_false_break (bil : ℚ → List (Option ℚ) × ℚ × Option ℚ)
    (inner : ℕ → ℚ → List (Option ℚ)) (X : List (List ℚ)) (ys : List ℚ) :
    ∀ (l : List ℕ) (i : ℕ) (rest : List ℕ) (acc EI0 : ℚ),
      (∀ j ∈ l, obj_fun_theta (inner j (ys.getD j 0 / EI0))
        (ys.getD j 0 / EI0) (X.getD j []) ≠ none) →
      obj_fun_theta (inner i (ys.getD i 0 / EI0))
        (ys.getD i 0 / EI0) (X.getD i []) = none →
      elasticaGo bil inner X ys false (l ++ i :: rest) acc EI0 = (100, EI0) := by
  intro l
  induction l with
  | nil =>
      intro i rest acc EI0 _ hnan
      simp only [List.getD_eq_getElem?_getD] at hnan
      simp [elasticaGo, hnan]
  | cons j l2 ih =>
      intro i rest acc EI0 hfin hnan
      obtain ⟨v, hv⟩ := Option.ne_none_iff_exists'.mp
        (hfin j (List.mem_cons_self _ _))
      have ih2 := ih i rest (acc + v) EI0
        (fun u hu => hfin u (List.mem_cons_of_mem _ hu)) hnan
      simp only [List.getD_eq_getElem?_getD] at hv ih2
      simp [elasticaGo, hv, ih2]

/-- C2 counterexample: the finite squared distance 400 (solution
`[20]` against ground truth `[0]`) is clamped to the sentinel 100 by the
Poisson `eval_MSE` — clamping is NOT restricted to non-finite values, so
"clamped iff non-finite, never for a finite error" fails. -/
theorem poisson_clamp_finite_cex :
    distSq [some 20] [(0 : ℚ)] = some 400 ∧
    eval_MSE_poisson (fun _ => [some 20]) [[0]] 1 false
      = Sum.inr (100 * (1 / 12)) ∧
    (100 * (1 / 12) : ℚ) ≠ 400 * (1 / 12) := by
  refine ⟨by norm_num [distSq], ?_, by norm_num⟩
  norm_num [eval_MSE_poisson, poissonSamples, distSq, clampErr,
    numSources, numSamplesPerSource, List.range_succ]

/-- C2 (amended): each sample of the Poisson `eval_MSE` contributes the
clamped squared Euclidean distance between the inner-solve solution and
the ground-truth field: equal to the distance exactly when it is finite
and at most 100, and clamped to the sentinel 100 exactly when the value
is NaN or at least 100. -/
theorem poisson_per_sample_error (solver : ℕ → List (Option ℚ))
    (X : List (List ℚ)) (n : ℕ) :
    eval_MSE_poisson solver X n false = Sum.inr
      ((((List.range n).map
        (fun i => clampErr (distSq (solver i) (X.getD i [])))).sum)
        * (1 / (numSources * numSamplesPerSource)))
    ∧ (∀ q : ℚ, clampErr (some q) = q ↔ q ≤ 100)
    ∧ (∀ e : Option ℚ, clampErr e = 100 ↔
        (e = none ∨ ∃ q, e = some q ∧ 100 ≤ q)) := by
  refine ⟨?_, ?_, ?_⟩
  · unfold eval_MSE_poisson
    rw [poissonSamples_sum]
    rw [zero_add]
  · intro q
    by_cases h : q > 100
    · simp only [clampErr, if_pos h]
      constructor
      · intro h1; linarith
      · intro h1; linarith
    · simp only [clampErr, if_neg h]
      push_neg at h
      simp [h]
  · intro e
    cases e with
    | none => simp [clampErr]
    | some q =>
        by_cases h : q > 100
        · simp only [clampErr, if_pos h]
          constructor
          · intro _; exact Or.inr ⟨q, rfl, le_of_lt h⟩
          · intro _; trivial
        · simp only [clampErr, if_neg h]
          push_neg at h
          constructor
          · intro h1
            exact Or.inr ⟨q, rfl, le_of_eq h1.symm⟩
          · rintro (h1 | ⟨q2, hq2, h2⟩)
            · exact absurd h1 (by simp)
            · injection hq2 with h3
              subst h3
              linarith

/-- C1 counterexample: in the elastica `eval_MSE`, with two samples whose
first inner solve gives the finite error 4 and whose second gives NaN,
the returned total is `round5(100 * 1/2) = 50`: the sentinel replaces the
entire accumulated total and the batch is aborted, so the result does not
equal the claim's `(100 + 4) * 1/2 = 52` (finite contributions are
discarded). -/
theorem eval_MSE_nan_discards_cex :
    obj_fun_theta ((fun (i : ℕ) (_ : ℚ) =>
        if i = 0 then [some 2] else [none]) 0 1) 1 [(0 : ℚ), 0] = some 4
    ∧ (eval_MSE_elastica (fun f => ([], f, none))
        (fun i _ => if i = 0 then [some 2] else [none])
        [[0, 0], [0, 0]] [1, 1] 1 false 2 2).1 = 50
    ∧ (50 : ℚ) ≠ (100 + 4) * (1 / 2) := by
  refine ⟨by norm_num [obj_fun_theta, distSq], ?_, by norm_num⟩
  norm_num [eval_MSE_elastica, elasticaGo, obj_fun_theta, distSq,
    round5, roundHalfEven, List.range_succ]

/-- C1 (amended): on a NaN inner-solve objective the two evaluators
diverge.  The elastica `eval_MSE` sets the total to the sentinel 100 and
breaks out of the loop, so with any NaN sample (all earlier samples
finite) the result is `round5(100/ndim)` regardless of every other
sample.  The Poisson `eval_MSE` does not abort: every sample of the split
is processed and the total is the sum of the per-sample clamped errors
(100 for the NaN sample, the clamped finite errors for the rest) divided
by `num_sources*num_samples_per_source`. -/
theorem eval_MSE_nan_amended (bil : ℚ → List (Option ℚ) × ℚ × Option ℚ)
    (inner : ℕ → ℚ → List (Option ℚ)) (X : List (List ℚ)) (ys : List ℚ)
    (EI0 : ℚ) (ndim n i : ℕ) (hndim : ndim ≠ 1) (hi : i < n)
    (hnan : obj_fun_theta (inner i (ys.getD i 0 / EI0))
      (ys.getD i 0 / EI0) (X.getD i []) = none)
    (hfin : ∀ j < i, obj_fun_theta (inner j (ys.getD j 0 / EI0))
      (ys.getD j 0 / EI0) (X.getD j []) ≠ none)
    (solver : ℕ → List (Option ℚ)) (Xp : List (List ℚ)) (m : ℕ) :
    (eval_MSE_elastica bil inner X ys EI0 false ndim n).1
      = round5 (100 * (1 / (ndim : ℚ)))
    ∧ eval_MSE_poisson solver Xp m false = Sum.inr
      ((((List.range m).map
        (fun j => clampErr (distSq (solver j) (Xp.getD j [])))).sum)
        * (1 / (numSources * numSamplesPerSource))) := by
  constructor
  · have hbrk := elasticaGo_false_break bil inner X ys (List.range i) i
      (List.range' (i + 1) (n - i - 1)) 0 EI0
      (fun j hj => hfin j (List.mem_range.mp hj)) hnan
    simp only [eval_MSE_elastica]
    rw [if_neg hndim, rangeSplit i n hi, hbrk]
  · unfold eval_MSE_poisson
    rw [poissonSamples_sum, zero_add]

/-- Witness for C1 (amended) at concrete data: elastica with two samples,
NaN at sample 1; Poisson with one sample of clamped finite error. -/
theorem eval_MSE_nan_amended_witness :
    (2 : ℕ) ≠ 1 ∧ (1 : ℕ) < 2
    ∧ ((eval_MSE_elastica (fun f => ([], f, none))
        (fun i _ => if i = 0 then [some 2] else [none])
        [[0, 0], [0, 0]] [1, 1] 1 false 2 2).1
          = round5 (100 * (1 / (2 : ℚ)))
      ∧ eval_MSE_poisson (fun _ => [some 2]) [[0]] 1 false = Sum.inr
        ((((List.range 1).map
          (fun j => clampErr (distSq ((fun (_ : ℕ) => [some 2]) j)
            ([[(0 : ℚ)]].getD j [])))).sum)
          * (1 / (numSources * numSamplesPerSource)))) := by
  refine ⟨by decide, by decide, ?_⟩
  exact eval_MSE_nan_amended (fun f => ([], f, none))
    (fun i _ => if i = 0 then [some 2] else [none])
    [[0, 0], [0, 0]] [1, 1] 1 2 2 1 (by decide) (by decide)
    (by simp [obj_fun_theta, distSq])
    (by
      intro j hj
      have hj0 : j = 0 := by omega
      subst hj0
      simp [obj_fun_theta, distSq])
    (fun _ => [some 2]) [[0]] 1

/-- C3 counterexample: a Poisson split of exactly one sample with
per-sample error 4 returns `4/12 = 1/3`, not the mean `4/1 = 4` (the
divisor is the module constant `num_sources*num_samples_per_source = 12`,
not the split length); an elastica split of three samples with per-sample
error 1 returns `3 * 1/ndim = 3/2` (ndim = 2), not the mean 1. -/
theorem mean_normalization_cex :
    distSq [some 2] [(0 : ℚ)] = some 4
    ∧ eval_MSE_poisson (fun _ => [some 2]) [[0]] 1 false = Sum.inr (1 / 3)
    ∧ (1 / 3 : ℚ) ≠ 4 / 1
    ∧ (eval_MSE_elastica (fun f => ([], f, none)) (fun _ _ => [some 1])
        [[0, 0], [0, 0], [0, 0]] [1, 1, 1] 1 false 2 3).1 = 3 / 2
    ∧ (3 / 2 : ℚ) ≠ (1 + 1 + 1) / 3 := by
  refine ⟨by norm_num [distSq], ?_, by norm_num, ?_, by norm_num⟩
  · norm_num [eval_MSE_poisson, poissonSamples, distSq, clampErr,
      numSources, numSamplesPerSource, List.range_succ]
  · norm_num [eval_MSE_elastica, elasticaGo, obj_fun_theta, distSq,
      round5, roundHalfEven, List.range_succ]

/-- C3 (amended): the value returned by the Poisson `eval_MSE` is the sum
of the clamped per-sample errors of the split divided by the fixed module
constant `num_sources*num_samples_per_source` (the full dataset size,
12), whatever the number of samples in the split; the elastica `eval_MSE`
divides its total by `X.ndim` (and rounds to five decimals), so each
equals the mean over the evaluated samples only when the split length
coincides with its divisor. -/
theorem normalization_amended (solver : ℕ → List (Option ℚ))
    (Xp : List (List ℚ)) (m : ℕ) (bil : ℚ → List (Option ℚ) × ℚ × Option ℚ)
    (inner : ℕ → ℚ → List (Option ℚ)) (X : List (List ℚ)) (ys : List ℚ)
    (EI0 : ℚ) (ndim n : ℕ) (hndim : ndim ≠ 1)
    (hfin : ∀ j < n, obj_fun_theta (inner j (ys.getD j 0 / EI0))
      (ys.getD j 0 / EI0) (X.getD j []) ≠ none) :
    eval_MSE_poisson solver Xp m false = Sum.inr
      ((((List.range m).map
        (fun j => clampErr (distSq (solver j) (Xp.getD j [])))).sum)
        * (1 / (numSources * numSamplesPerSource)))
    ∧ (eval_MSE_elastica bil inner X ys EI0 false ndim n).1
      = round5 ((((List.range n).map
          (fun j => (obj_fun_theta (inner j (ys.getD j 0 / EI0))
            (ys.getD j 0 / EI0) (X.getD j [])).getD 0)).sum)
          * (1 / (ndim : ℚ))) := by
  constructor
  · unfold eval_MSE_poisson
    rw [poissonSamples_sum, zero_add]
  · have hsum := elasticaGo_false_sum bil inner X ys (List.range n) 0 EI0
      (fun j hj => hfin j (List.mem_range.mp hj))
    simp only [eval_MSE_elastica]
    rw [if_neg hndim, hsum, zero_add]

/-- A concrete inner solver returning the constant solution `[1]`, used as
black-box instantiation in witnesses. -/
def innerOne : ℕ → ℚ → List (Option ℚ) := fun _ _ => [some 1]

/-- A concrete bilevel solver returning its initial parameter value with a
NaN objective, used as black-box instantiation in witnesses. -/
def bilNan : ℚ → List (Option ℚ) × ℚ × Option ℚ := fun f => ([], f, none)

/-- Witness for C3 (amended) at concrete data: a one-sample Poisson split
and a three-sample elastica split with all-finite inner solves. -/
theorem normalization_amended_witness :
    (2 : ℕ) ≠ 1
    ∧ (eval_MSE_poisson (fun _ => [some 2]) [[0]] 1 false = Sum.inr
        ((((List.range 1).map
          (fun j => clampErr (distSq ((fun (_ : ℕ) => [some 2]) j)
            ([[(0 : ℚ)]].getD j [])))).sum)
          * (1 / (numSources * numSamplesPerSource)))
      ∧ (eval_MSE_elastica bilNan innerOne
          [[0, 0], [0, 0], [0, 0]] [1, 1, 1] 1 false 2 3).1
        = round5 ((((List.range 3).map
            (fun j => (obj_fun_theta
              (innerOne j (([1, 1, 1] : List ℚ).getD j 0 / 1))
              (([1, 1, 1] : List ℚ).getD j 0 / 1)
              (([[0, 0], [0, 0], [0, 0]] : List (List ℚ)).getD j [])).getD
              0)).sum)
            * (1 / (2 : ℚ)))) := by
  refine ⟨by decide, ?_⟩
  exact normalization_amended (fun _ => [some 2]) [[0]] 1
    bilNan innerOne [[0, 0], [0, 0], [0, 0]] [1, 1, 1] 1 2 3 (by decide)
    (by
      intro j hj
      interval_cases j <;> simp [obj_fun_theta, distSq, innerOne])

lemma pyMax_eq_listMax (l : List ℕ) : pyMax l = l.max? := by
  cases l <;> rfl

lemma pyMax_spec (l : List ℕ) (m : ℕ) (h : pyMax l = some m) :
    m ∈ l ∧ ∀ x ∈ l, x ≤ m := by
  rw [pyMax_eq_listMax] at h
  exact (List.max?_eq_some_iff (fun a => le_refl a)
    (fun a b => max_choice a b) (fun a b c => max_le_iff)).mp h

lemma pyMax_ne_none (l : List ℕ) (h : l ≠ []) : ∃ m, pyMax l = some m := by
  cases l with
  | nil => exact absurd rfl h
  | cons a t => exact ⟨t.foldl max a, rfl⟩

/-- C7: for every penalty configuration, the elastica `eval_fitness`
returns the `eval_MSE` result plus `reg_param` times the penalty term:
the individual's node count for method `'length'`, the maximum over the
primitive-name list of the number of substring occurrences of that name
in the individual's printed form for method `'primitive'`, and zero for
any other method. -/
theorem eval_fitness_penalty (bil : ℚ → List (Option ℚ) × ℚ × Option ℚ)
    (inner : ℕ → ℚ → List (Option ℚ)) (X : List (List ℚ)) (ys : List ℚ)
    (EI0 : ℚ) (isBil : Bool) (ndim n : ℕ) (regParam : ℚ)
    (indStr : List Char) (indLen : ℕ) (primStrs : List (List Char))
    (hps : primStrs ≠ []) :
    eval_fitness_elastica bil inner X ys EI0 isBil ndim n "length".data
      regParam indStr indLen primStrs
      = some ((eval_MSE_elastica bil inner X ys EI0 isBil ndim n).1
          + regParam * (indLen : ℚ))
    ∧ (∃ m : ℕ, (∀ s ∈ primStrs, strCount s indStr ≤ m)
        ∧ (∃ s ∈ primStrs, strCount s indStr = m)
        ∧ eval_fitness_elastica bil inner X ys EI0 isBil ndim n
            "primitive".data regParam indStr indLen primStrs
          = some ((eval_MSE_elastica bil inner X ys EI0 isBil ndim n).1
              + regParam * (m : ℚ)))
    ∧ (∀ method : List Char, method ≠ "primitive".data →
        method ≠ "length".data →
        eval_fitness_elastica bil inner X ys EI0 isBil ndim n method
          regParam indStr indLen primStrs
          = some ((eval_MSE_elastica bil inner X ys EI0 isBil ndim n).1
              + regParam * (0 : ℚ))) := by
  refine ⟨?_, ?_, ?_⟩
  · simp [eval_fitness_elastica]
  · have hne : primStrs.map (fun s => strCount s indStr) ≠ [] := by
      intro hmap
      exact hps (List.map_eq_nil_iff.mp hmap)
    obtain ⟨m, hm⟩ := pyMax_ne_none _ hne
    obtain ⟨hmem, hbound⟩ := pyMax_spec _ m hm
    refine ⟨m, ?_, ?_, ?_⟩
    · intro s hs
      exact hbound _ (List.mem_map_of_mem _ hs)
    · obtain ⟨s, hs, hsm⟩ := List.mem_map.mp hmem
      exact ⟨s, hs, hsm⟩
    · simp [eval_fitness_elastica, hm]
  · intro method h1 h2
    simp [eval_fitness_elastica, h1, h2]

/-- Witness for C7 at concrete data: one primitive name occurring twice
in the printed individual. -/
theorem eval_fitness_penalty_witness :
    (["AddC".data] : List (List Char)) ≠ []
    ∧ (eval_fitness_elastica bilNan innerOne [[0, 0]] [1] 1 false 1 1
        "length".data 2 "AddCAddC".data 5 ["AddC".data]
        = some ((eval_MSE_elastica bilNan innerOne [[0, 0]] [1] 1
            false 1 1).1 + 2 * ((5 : ℕ) : ℚ))
      ∧ (∃ m : ℕ, (∀ s ∈ (["AddC".data] : List (List Char)),
            strCount s "AddCAddC".data ≤ m)
          ∧ (∃ s ∈ (["AddC".data] : List (List Char)),
              strCount s "AddCAddC".data = m)
          ∧ eval_fitness_elastica bilNan innerOne [[0, 0]] [1] 1 false 1 1
              "primitive".data 2 "AddCAddC".data 5 ["AddC".data]
            = some ((eval_MSE_elastica bilNan innerOne [[0, 0]] [1] 1
                false 1 1).1 + 2 * (m : ℚ)))
      ∧ (∀ method : List Char, method ≠ "primitive".data →
          method ≠ "length".data →
          eval_fitness_elastica bilNan innerOne [[0, 0]] [1] 1 false 1 1
            method 2 "AddCAddC".data 5 ["AddC".data]
            = some ((eval_MSE_elastica bilNan innerOne [[0, 0]] [1] 1
                false 1 1).1 + 2 * (0 : ℚ)))) :=
  ⟨by decide, eval_fitness_penalty bilNan innerOne [[0, 0]] [1] 1 false 1 1
    2 "AddCAddC".data 5 ["AddC".data] (by decide)⟩

/-- A concrete bilevel solver whose fitted parameter and objective depend
on the initial value it is started from: `prb.run` started at `f`
returns `FL2_EI0 = f/2` and objective `f`. -/
def bilHalf : ℚ → List (Option ℚ) × ℚ × Option ℚ := fun f => ([], f / 2, some f)

/-- C8 counterexample: with the bilevel fit enabled, the first
`eval_MSE` call updates the individual's `EI0` from 1 to 2; the
immediately following call therefore starts the bilevel solve at
parameter value `1/2` instead of `1` and returns fitness `1/2` instead of
`1` — two successive calls on identical data are NOT bit-identical. -/
theorem eval_MSE_bilevel_state_cex :
    eval_MSE_elastica bilHalf innerOne [[0]] [1] 1 true 1 1 = (1, 2)
    ∧ eval_MSE_elastica bilHalf innerOne [[0]] [1]
        ((eval_MSE_elastica bilHalf innerOne [[0]] [1] 1 true 1 1).2)
        true 1 1 = (1 / 2, 4)
    ∧ (1 : ℚ) ≠ 1 / 2 := by
  refine ⟨?_, ?_, by norm_num⟩ <;>
    norm_num [eval_MSE_elastica, elasticaGo, bilHalf, innerOne,
      obj_fun_theta, distSq, round5, roundHalfEven, List.range_succ]

/-- C8 (amended): `eval_MSE` is a pure function of its arguments
including the individual's `EI0` state, and with `is_bil_train=False` it
leaves that state unchanged, so two successive calls with the bilevel fit
disabled return identical results; with `is_bil_train=True` the first
call rewrites `EI0`, so the second call's inner solve starts from a
different parameter value and its result may differ. -/
theorem eval_MSE_determinism_amended
    (bil : ℚ → List (Option ℚ) × ℚ × Option ℚ)
    (inner : ℕ → ℚ → List (Option ℚ)) (X : List (List ℚ)) (ys : List ℚ)
    (EI0 : ℚ) (ndim n : ℕ) :
    (eval_MSE_elastica bil inner X ys EI0 false ndim n).2 = EI0
    ∧ eval_MSE_elastica bil inner X ys
        ((eval_MSE_elastica bil inner X ys EI0 false ndim n).2)
        false ndim n
      = eval_MSE_elastica bil inner X ys EI0 false ndim n := by
  have h2 : (eval_MSE_elastica bil inner X ys EI0 false ndim n).2 = EI0 := by
    simp only [eval_MSE_elastica]
    exact elasticaGo_false_snd bil inner X ys _ 0 EI0
  exact ⟨h2, by rw [h2]⟩

/-- C10: with `return_best_sol=True` and a non-empty split, the Poisson
`eval_MSE` returns the inner-solve solution of sample 0 immediately: the
result is `Sum.inl (solver 0)`, for any ground-truth data and any split
length, and it agrees for any second solver that coincides with the
first at sample 0 (no later sample is solved, no error or mean is ever
computed). -/
theorem poisson_return_best_first (solver solver2 : ℕ → List (Option ℚ))
    (X X2 : List (List ℚ)) (n n2 : ℕ) (h : 1 ≤ n) (h2 : 1 ≤ n2)
    (hs : solver2 0 = solver 0) :
    eval_MSE_poisson solver X n true = Sum.inl (solver 0)
    ∧ eval_MSE_poisson solver2 X2 n2 true = Sum.inl (solver 0) := by
  constructor
  · unfold eval_MSE_poisson
    rw [rangeSplit 0 n h]
    simp [poissonSamples]
  · unfold eval_MSE_poisson
    rw [rangeSplit 0 n2 h2]
    simp [poissonSamples, hs]

/-- Witness for C10: two solvers agreeing at sample 0, splits of lengths
1 and 2. -/
theorem poisson_return_best_first_witness :
    (1 : ℕ) ≤ 1 ∧ (1 : ℕ) ≤ 2
    ∧ (eval_MSE_poisson (fun _ => [none]) [[0]] 1 true = Sum.inl [none]
      ∧ eval_MSE_poisson (fun i => if i = 0 then [none] else [some 5])
          [[1], [2]] 2 true = Sum.inl [none]) := by
  refine ⟨by decide, by decide, ?_⟩
  have h := poisson_return_best_first (fun _ => [none])
    (fun i => if i = 0 then [none] else [some 5]) [[0]] [[1], [2]] 1 2
    (by decide) (by decide) (by simp)
  exact h

/-- Python's substring containment `pat in s`. -/
def isSubstring (pat s : List Char) : Bool :=
  (List.range (s.length + 1)).any (fun i => pat.isPrefixOf (s.drop i))

/-- The feasibility test of `addPrimitivesToPset`
(`src/alpine/gp/primitives.py` lines 429-437): the non-feasible
dimensions `{'0','1','2'} - dims` and non-feasible ranks
`{"SC","V","T","vtm"} - ranks` are counted as substrings OF THE FAMILY
NAME ITSELF (`primitive_family['name'].count(obj)`), and the family
passes when that count is zero or the family name contains `"VT"`
exactly once. -/
def familyAllowed (famName : List Char)
    (famDims famRanks : List (List Char)) : Bool :=
  (((["0".data, "1".data, "2".data].filter
      (fun d => !famDims.contains d))
    ++ (["SC".data, "V".data, "T".data, "vtm".data].filter
      (fun r => !famRanks.contains r))).map
    (fun obj => strCount obj famName)).sum == 0
  || strCount "VT".data famName == 1

/-- One family request of `addPrimitivesToPset`
(`src/alpine/gp/primitives.py` lines 425-442): every catalog primitive
whose name contains the family name is added to the primitive set when
the family passes the feasibility test.  The result is the list of
primitives added for this request. -/
def addPrimitivesFamily {α : Type}
    (catalog : List (List Char × PrimitiveParams α)) (famName : List Char)
    (famDims famRanks : List (List Char)) :
    List (List Char × PrimitiveParams α) :=
  catalog.filter
    (fun pr => isSubstring famName pr.1 && familyAllowed famName famDims famRanks)

/-- C9: the dimension/rank feasibility filter of `addPrimitivesToPset` is
evaluated on the family's own name string, never on a concrete
primitive's name or attributes: for any family request, the added set is
exactly the set of catalog primitives whose names contain the family name
when the family passes, and empty otherwise — all or nothing, so the
declared dimension set never excludes an individual primitive of a
non-declared dimension. -/
theorem addPrimitives_family_filter {α : Type}
    (catalog : List (List Char × PrimitiveParams α)) (famName : List Char)
    (famDims famRanks : List (List Char)) :
    addPrimitivesFamily catalog famName famDims famRanks
      = (if familyAllowed famName famDims famRanks
         then catalog.filter (fun pr => isSubstring famName pr.1)
         else [])
    ∧ (addPrimitivesFamily catalog famName famDims famRanks
        = catalog.filter (fun pr => isSubstring famName pr.1)
      ∨ addPrimitivesFamily catalog famName famDims famRanks = []) := by
  constructor
  · cases h : familyAllowed famName famDims famRanks with
    | true => simp [addPrimitivesFamily, h]
    | false => simp [addPrimitivesFamily, h]
  · cases h : familyAllowed famName famDims famRanks with
    | true => exact Or.inl (by simp [addPrimitivesFamily, h])
    | false => exact Or.inr (by simp [addPrimitivesFamily, h])
